import Mathlib

/-!
Verification of the printipi hardware-facing core: the A4988 stepper-driver
sequencer (src/drivers/a4988.h), the RCThermistor timing-based sensor
(src/drivers/rcthermistor.h) and the LinearDeltaCoordMap forward kinematics
and workspace bounding (lineardeltacoordmap part of src/drivers/rcthermistor.h).

Timestamps are modelled as integer microseconds; the C++ `float` arithmetic of
the coordinate mapper and sensor is modelled over the real numbers.
-/

namespace Printipi

/-- A digital pin level, `IoLow` / `IoHigh` from the source. -/
inductive IoLevel where
  | IoLow
  | IoHigh
deriving DecidableEq, Repr

export IoLevel (IoLow IoHigh)

/-- The step direction of a logical event (`StepForward` / `StepBackward`). -/
inductive StepDirection where
  | StepForward
  | StepBackward
deriving DecidableEq, Repr

export StepDirection (StepForward StepBackward)

/-- A logical motion event: `Event` from the source, with its `time()` (in
microseconds) and `direction()`. -/
structure Event where
  time : ℤ
  direction : StepDirection

/-- A timed pin-level transition: `OutputEvent(time, pinId, level)` from the
source. -/
structure OutputEvent where
  time : ℤ
  pinId : ℕ
  level : IoLevel
deriving DecidableEq, Repr

/-- The pin identities of one A4988 driver instance (`stepPin.id()`,
`dirPin.id()`, `enablePin.id()`). -/
structure A4988Pins where
  stepPinId : ℕ
  dirPinId : ℕ
  enablePinId : ℕ

/-- The driven levels of the three pins owned by one A4988 instance. -/
structure A4988State where
  enableLevel : IoLevel
  stepLevel : IoLevel
  dirLevel : IoLevel
deriving DecidableEq, Repr

/-- One immediate `digitalWrite` performed on a pin. -/
structure PinWrite where
  pinId : ℕ
  level : IoLevel
deriving DecidableEq, Repr

/-- Source `A4988::getEventOutputSequence`: direction pin at `evt.time()` (High iff
the direction is `StepForward`), step pin Low at `evt.time()`, step pin High at
`evt.time() + 8` microseconds. -/
def getEventOutputSequence (pins : A4988Pins) (evt : Event) : List OutputEvent :=
  [ ⟨evt.time, pins.dirPinId, if evt.direction = StepForward then IoHigh else IoLow⟩,
    ⟨evt.time, pins.stepPinId, IoLow⟩,
    ⟨evt.time + 8, pins.stepPinId, IoHigh⟩ ]

/-- Source `A4988::lockAxis`: a single `enablePin.digitalWrite(IoHigh)`.  The result
records the new pin state, the list of immediate pin writes performed, and the
(empty) list of timed output events produced. -/
def lockAxis (pins : A4988Pins) (s : A4988State) :
    A4988State × List PinWrite × List OutputEvent :=
  (⟨IoHigh, s.stepLevel, s.dirLevel⟩, [⟨pins.enablePinId, IoHigh⟩], [])

/-- Source `A4988::unlockAxis`: a single `enablePin.digitalWrite(IoLow)`. -/
def unlockAxis (pins : A4988Pins) (s : A4988State) :
    A4988State × List PinWrite × List OutputEvent :=
  (⟨IoLow, s.stepLevel, s.dirLevel⟩, [⟨pins.enablePinId, IoLow⟩], [])

/-- C1: for every logical event at time `T`, `getEventOutputSequence` returns
exactly three output events in order: `(T, dirPin, High)` for `StepForward`
(resp. `(T, dirPin, Low)` for `StepBackward`), then `(T, stepPin, Low)`, then
`(T + 8µs, stepPin, High)`. -/
theorem getEventOutputSequence_spec (pins : A4988Pins) (T : ℤ) :
    getEventOutputSequence pins ⟨T, StepForward⟩ =
      [ ⟨T, pins.dirPinId, IoHigh⟩,
        ⟨T, pins.stepPinId, IoLow⟩,
        ⟨T + 8, pins.stepPinId, IoHigh⟩ ] ∧
    getEventOutputSequence pins ⟨T, StepBackward⟩ =
      [ ⟨T, pins.dirPinId, IoLow⟩,
        ⟨T, pins.stepPinId, IoLow⟩,
        ⟨T + 8, pins.stepPinId, IoHigh⟩ ] := by
  constructor <;> rfl

/-- C10: `lockAxis` performs exactly one immediate write, High on the enable
pin, and `unlockAxis` exactly one immediate write, Low on the enable pin;
neither changes the step or direction pin level, and neither produces any timed
`OutputEvent`. -/
theorem lockAxis_unlockAxis_frame (pins : A4988Pins) (s : A4988State) :
    (lockAxis pins s).2.1 = [⟨pins.enablePinId, IoHigh⟩] ∧
    (unlockAxis pins s).2.1 = [⟨pins.enablePinId, IoLow⟩] ∧
    (lockAxis pins s).1.enableLevel = IoHigh ∧
    (unlockAxis pins s).1.enableLevel = IoLow ∧
    (lockAxis pins s).1.stepLevel = s.stepLevel ∧
    (lockAxis pins s).1.dirLevel = s.dirLevel ∧
    (unlockAxis pins s).1.stepLevel = s.stepLevel ∧
    (unlockAxis pins s).1.dirLevel = s.dirLevel ∧
    (lockAxis pins s).2.2 = [] ∧
    (unlockAxis pins s).2.2 = [] := by
  refine ⟨rfl, rfl, rfl, rfl, rfl, rfl, rfl, rfl, rfl, rfl⟩

/-! ## RCThermistor read cycle (`RCThermistor::isReady`) -/

/-- The configured mode of the sensor pin: `makeDigitalInput()` releases it to
float (its reading is then the external capacitor level), while
`makeDigitalOutput(IoHigh)` / `makeDigitalOutput(IoLow)` actively drive it. -/
inductive PinConfig where
  | input
  | outputHigh
  | outputLow
deriving DecidableEq, Repr

/-- The state of one RCThermistor instance relevant to `isReady`: the pin
configuration and the recorded `_endReadTime` (`none` until a read completes). -/
structure RCReadState where
  pinConfig : PinConfig
  endReadTime : Option ℕ
deriving DecidableEq, Repr

/-- Source `pin.digitalRead()`: a pin actively driven as an output reads back its
driven level; a floating input pin reads the external capacitor level `env`. -/
def digitalRead (s : RCReadState) (env : IoLevel) : IoLevel :=
  match s.pinConfig with
  | PinConfig.input => env
  | PinConfig.outputHigh => IoHigh
  | PinConfig.outputLow => IoLow

/-- Source `RCThermistor::isReady`: sample the pin; if it reads High the capacitor is
still discharging and the call returns `false`; otherwise record
`_endReadTime = now`, drive the pin back to output-High to drain the capacitor,
and return `true`. -/
def isReady (now : ℕ) (env : IoLevel) (s : RCReadState) : RCReadState × Bool :=
  if digitalRead s env = IoHigh then
    (s, false)
  else
    (⟨PinConfig.outputHigh, some now⟩, true)

/-- Run `isReady` once per element of the trace `envs` of external capacitor
levels, threading the state, collecting each call's boolean result.  The clock
value is `now` for the first call, incrementing with each call. -/
def runIsReady : RCReadState → ℕ → List IoLevel → List Bool
  | _, _, [] => []
  | s, now, env :: rest =>
      let r := isReady now env s
      r.2 :: runIsReady r.1 (now + 1) rest

/-- Once the pin is driven output-High (the post-completion configuration),
every further `isReady` call samples High and returns false. -/
theorem runIsReady_outputHigh (e : Option ℕ) (now : ℕ) (envs : List IoLevel) :
    runIsReady ⟨PinConfig.outputHigh, e⟩ now envs =
      List.replicate envs.length false := by
  induction envs generalizing now with
  | nil => rfl
  | cons x rest ih =>
      simp [runIsReady, isReady, digitalRead, List.replicate_succ, ih (now + 1)]

/-- C3 counterexample: with capacitor-level samples High, Low, High starting
from a fresh read (input pin), the call after the completed read returns
`false`, not `true` as the claim states: the code re-samples the pin, which is
now driven High. -/
theorem isReady_counterexample :
    (runIsReady ⟨PinConfig.input, none⟩ 0 [IoHigh, IoLow, IoHigh]).getD 2 false
      ≠ true := by
  decide

/-- C3 amended: during a read cycle started with the pin as an input,
`isReady()` returns false on every call while the capacitor level samples High;
the first call that samples Low records the end time, drives the pin back to
output-High and returns true; every subsequent call samples the (now driven)
pin again and returns false until a new read cycle starts. -/
theorem isReady_cycle (pre post : List IoLevel) (now : ℕ)
    (hpre : ∀ l ∈ pre, l = IoHigh) :
    runIsReady ⟨PinConfig.input, none⟩ now (pre ++ IoLow :: post) =
      List.replicate pre.length false ++ true :: List.replicate post.length false ∧
    isReady now IoLow ⟨PinConfig.input, none⟩ =
      (⟨PinConfig.outputHigh, some now⟩, true) := by
  refine ⟨?_, rfl⟩
  induction pre generalizing now with
  | nil =>
      simp [runIsReady, isReady, digitalRead, runIsReady_outputHigh]
  | cons x rest ih =>
      have hx : x = IoHigh := hpre x (List.mem_cons_self x rest)
      subst hx
      have ih' := ih (now + 1) (fun l hl => hpre l (List.mem_cons_of_mem _ hl))
      simp [runIsReady, isReady, digitalRead, List.replicate_succ, ih']

/-- Witness for the amended C3 theorem at the concrete trace High, Low, High. -/
theorem isReady_cycle_witness :
    (∀ l ∈ [IoHigh], l = IoHigh) ∧
    runIsReady ⟨PinConfig.input, none⟩ 0 ([IoHigh] ++ IoLow :: [IoHigh]) =
      List.replicate 1 false ++ true :: List.replicate 1 false :=
  ⟨by decide, (isReady_cycle [IoHigh] [IoHigh] 0 (by decide)).1⟩

/-! ## LinearDeltaCoordMap: forward kinematics and workspace bounding -/

/-- The geometry fields of a `LinearDeltaCoordMap`:
`_r, _L, _h, _buildrad, _STEPS_MM, _MM_STEPS, _STEPS_MM_EXT, _MM_STEPS_EXT`. -/
structure LinearDeltaCoordMap where
  r : ℝ
  L : ℝ
  h : ℝ
  buildrad : ℝ
  STEPS_MM : ℝ
  MM_STEPS : ℝ
  STEPS_MM_EXT : ℝ
  MM_STEPS_EXT : ℝ

/-- The `LinearDeltaCoordMap` constructor: `_MM_STEPS = 1/STEPS_MM` and
`_MM_STEPS_EXT = 1/STEPS_MM_EXT`. -/
noncomputable def mkLinearDeltaCoordMap (r L h buildrad sMM sMMExt : ℝ) :
    LinearDeltaCoordMap :=
  ⟨r, L, h, buildrad, sMM, 1 / sMM, sMMExt, 1 / sMMExt⟩

/-- Source `LinearDeltaCoordMap::MIN_Z()`: `-2` ("useful to be able to go a little
under z=0 when tuning"). -/
def MIN_Z : ℝ := -2

/-- The upper z limit used by `LinearDeltaCoordMap::bound`:
`(h() + sqrt(L()*L() - r()*r())) * STEPS_MM()`. -/
noncomputable def zBound (d : LinearDeltaCoordMap) : ℝ :=
  (d.h + Real.sqrt (d.L * d.L - d.r * d.r)) * d.STEPS_MM

/-- Source `LinearDeltaCoordMap::bound`: clamp `z` to
`[MIN_Z, (h + sqrt(L*L - r*r)) * STEPS_MM]` and, when `x*x + y*y` exceeds
`buildrad*buildrad`, scale `x` and `y` by `sqrt(buildrad^2 / (x^2+y^2))`;
`e` passes through. -/
noncomputable def bound (d : LinearDeltaCoordMap) (xyze : ℝ × ℝ × ℝ × ℝ) :
    ℝ × ℝ × ℝ × ℝ :=
  let z := max MIN_Z (min (zBound d) xyze.2.2.1)
  let x := xyze.1
  let y := xyze.2.1
  if x * x + y * y > d.buildrad * d.buildrad then
    let ratio := Real.sqrt (d.buildrad * d.buildrad / (x * x + y * y))
    (x * ratio, y * ratio, z, xyze.2.2.2)
  else
    (x, y, z, xyze.2.2.2)

/-- The denominator `ydiv` of the two-towers-equal branch of
`xyzeFromMechanical`. -/
def ydiv (A B r : ℝ) : ℝ := 2 * (4 * A * A - 8 * A * B + 4 * B * B + 9 * r * r)

/-- The denominator `zdiv` of the all-towers-differ branch of
`xyzeFromMechanical`. -/
def zdiv (A B C r : ℝ) : ℝ :=
  (B - C) * r * (4 * (A * A + B * B - B * C + C * C - A * (B + C)) + 9 * r * r)

/-- Source `LinearDeltaCoordMap::xyzeFromMechanical`: convert the four step counts to
millimeters and solve the sphere-intersection system, with separate branches
for all towers equal, exactly two towers equal, and all towers distinct. -/
noncomputable def xyzeFromMechanical (d : LinearDeltaCoordMap)
    (mech : ℤ × ℤ × ℤ × ℤ) : ℝ × ℝ × ℝ × ℝ :=
  let e := (mech.2.2.2 : ℝ) * d.MM_STEPS_EXT
  let A := (mech.1 : ℝ) * d.MM_STEPS
  let B := (mech.2.1 : ℝ) * d.MM_STEPS
  let C := (mech.2.2.1 : ℝ) * d.MM_STEPS
  if A = B ∧ B = C then
    (0, 0, A - Real.sqrt (d.L * d.L - d.r * d.r), e)
  else if B = C then
    let yd := ydiv A B d.r
    let ya := 2 * (A - B) * (A - B) * d.r
    let yb := 4 * Real.sqrt ((A - B) * (A - B) *
      (-(A - B) * (A - B) * (A - B) * (A - B) +
        4 * (A - B) * (A - B) * d.L * d.L +
        3 * (-2 * (A - B) * (A - B) + 3 * d.L * d.L) * d.r * d.r -
        9 * d.r * d.r * d.r * d.r))
    let com1 := |yb / ((A - B) * yd)|
    let com2 := ya / yd
    let z := 0.5 * (A + B - 3 * d.r * (com2 / (A - B) + com1))
    let y := com2 + (A - B) * com1
    (0, y, z, e)
  else
    let za := (B - C) * d.r *
      (2 * A * A * A - A * A * (B + C) - A * (B * B + C * C - 3 * d.r * d.r) +
        (B + C) * (2 * B * B - 3 * B * C + 2 * C * C + 3 * d.r * d.r))
    let zb := Real.sqrt 3 * Real.sqrt (-((B - C) * (B - C) * d.r * d.r *
      ((A - B) * (A - B) * (A - C) * (A - C) * (B - C) * (B - C) +
        3 * (A * A + B * B - B * C + C * C - A * (B + C)) *
          (A * A + B * B - B * C + C * C - A * (B + C) - 4 * d.L * d.L) *
            d.r * d.r +
        9 * (2 * (A * A + B * B - B * C + C * C - A * (B + C)) -
          3 * d.L * d.L) * d.r * d.r * d.r * d.r +
        27 * d.r * d.r * d.r * d.r * d.r * d.r)))
    let zd := zdiv A B C d.r
    let z := za / zd - |zb / zd|
    let x := ((B - C) * (B + C - 2 * z)) / (2 * Real.sqrt 3 * d.r)
    let y := -((-2 * A * A + B * B + C * C + 4 * A * z - 2 * B * z - 2 * C * z) /
      (6 * d.r))
    (x, y, z, e)

/-- C4: when the three tower step counts convert to equal heights
`A = B = C`, the forward kinematics returns exactly
`x = 0, y = 0, z = A - sqrt(L*L - r*r)` (with `e` converted as usual). -/
theorem xyzeFromMechanical_allEqual (d : LinearDeltaCoordMap)
    (mech : ℤ × ℤ × ℤ × ℤ)
    (hAB : (mech.1 : ℝ) * d.MM_STEPS = (mech.2.1 : ℝ) * d.MM_STEPS)
    (hBC : (mech.2.1 : ℝ) * d.MM_STEPS = (mech.2.2.1 : ℝ) * d.MM_STEPS) :
    xyzeFromMechanical d mech =
      (0, 0, (mech.1 : ℝ) * d.MM_STEPS - Real.sqrt (d.L * d.L - d.r * d.r),
        (mech.2.2.2 : ℝ) * d.MM_STEPS_EXT) := by
  simp only [xyzeFromMechanical]
  rw [if_pos ⟨hAB, hBC⟩]

/-- A sample geometry with `r = 3`, `L = 5`, `h = 10`, `buildrad = 85` and
one step per millimeter on every axis. -/
noncomputable def dEx : LinearDeltaCoordMap := mkLinearDeltaCoordMap 3 5 10 85 1 1

/-- Witness for C4 at `mech = (50, 50, 50, 7)` with the `dEx` geometry:
the result is exactly `(0, 0, 50 - 4, 7)`. -/
theorem xyzeFromMechanical_allEqual_witness :
    (((50 : ℤ) : ℝ) * dEx.MM_STEPS = ((50 : ℤ) : ℝ) * dEx.MM_STEPS ∧
      ((50 : ℤ) : ℝ) * dEx.MM_STEPS = ((50 : ℤ) : ℝ) * dEx.MM_STEPS) ∧
    xyzeFromMechanical dEx (50, 50, 50, 7) = (0, 0, 46, 7) := by
  refine ⟨⟨rfl, rfl⟩, ?_⟩
  have h := xyzeFromMechanical_allEqual dEx (50, 50, 50, 7) rfl rfl
  rw [h]
  have hsq : dEx.L * dEx.L - dEx.r * dEx.r = 4 ^ 2 := by
    norm_num [dEx, mkLinearDeltaCoordMap]
  rw [hsq, Real.sqrt_sq (by norm_num : (0 : ℝ) ≤ 4)]
  norm_num [dEx, mkLinearDeltaCoordMap]

/-- C5 counterexample: under the claimed precondition `L > r ≥ 0` alone the
all-towers-differ branch is not division-safe: with `r = 0`, `L = 5` and
`A = 1, B = 2, C = 3` (so `B ≠ C`) the denominator `zdiv` and the factor `r`
are both zero. -/
theorem xyzeFromMechanical_total_counterexample :
    ¬ (∀ A B C r L : ℝ, r < L → 0 ≤ r → B ≠ C →
        zdiv A B C r ≠ 0 ∧ r ≠ 0) := by
  intro hcl
  have h := hcl 1 2 3 0 5 (by norm_num) (by norm_num) (by norm_num)
  exact h.2 rfl

/-- C5 amended: under the strengthened construction precondition
`L > r > 0`, every denominator of `xyzeFromMechanical` is nonzero: in the
two-towers-equal branch `ydiv` and `A - B` are nonzero, and in the
all-towers-differ branch `zdiv` and `r` are nonzero. -/
theorem xyzeFromMechanical_denominators (A B C r L : ℝ)
    (hr : 0 < r) (hL : r < L) :
    (A ≠ B → ydiv A B r ≠ 0 ∧ A - B ≠ 0) ∧
    (B ≠ C → zdiv A B C r ≠ 0 ∧ r ≠ 0) := by
  constructor
  · intro hAB
    refine ⟨ne_of_gt ?_, sub_ne_zero_of_ne hAB⟩
    unfold ydiv
    nlinarith [sq_nonneg (A - B), mul_pos hr hr]
  · intro hBC
    refine ⟨?_, ne_of_gt hr⟩
    have hq : 0 < 4 * (A * A + B * B - B * C + C * C - A * (B + C)) + 9 * r * r := by
      nlinarith [sq_nonneg (A - B), sq_nonneg (B - C), sq_nonneg (A - C),
        mul_pos hr hr]
    unfold zdiv
    exact mul_ne_zero (mul_ne_zero (sub_ne_zero_of_ne hBC) (ne_of_gt hr))
      (ne_of_gt hq)

/-- Witness for the amended C5 theorem at `A = 1, B = 2, C = 3, r = 1, L = 5`. -/
theorem xyzeFromMechanical_denominators_witness :
    ((0 : ℝ) < 1 ∧ (1 : ℝ) < 5) ∧
    (((1 : ℝ) ≠ 2 → ydiv 1 2 1 ≠ 0 ∧ (1 : ℝ) - 2 ≠ 0) ∧
      ((2 : ℝ) ≠ 3 → zdiv 1 2 3 1 ≠ 0 ∧ (1 : ℝ) ≠ 0)) :=
  ⟨⟨by norm_num, by norm_num⟩,
    xyzeFromMechanical_denominators 1 2 3 1 5 (by norm_num) (by norm_num)⟩

/-- Clamping to `[a, b]` twice is the same as clamping once, for any `a, b`. -/
theorem clamp_idem (a b z : ℝ) :
    max a (min b (max a (min b z))) = max a (min b z) := by
  rcases le_total a b with hab | hab <;> rcases le_total b z with hbz | hbz <;>
    rcases le_total a z with haz | haz <;>
      simp [max_def, min_def] <;> split_ifs <;> linarith

/-- When `x*x + y*y > buildrad*buildrad`, the scaled point returned by `bound`
lies exactly on the build-plate boundary. -/
theorem bound_on_boundary (d : LinearDeltaCoordMap) (p : ℝ × ℝ × ℝ × ℝ)
    (hgt : p.1 * p.1 + p.2.1 * p.2.1 > d.buildrad * d.buildrad) :
    (bound d p).1 * (bound d p).1 + (bound d p).2.1 * (bound d p).2.1 =
      d.buildrad * d.buildrad := by
  have hs : 0 < p.1 * p.1 + p.2.1 * p.2.1 :=
    lt_of_le_of_lt (mul_self_nonneg d.buildrad) hgt
  have ht2 : Real.sqrt (d.buildrad * d.buildrad / (p.1 * p.1 + p.2.1 * p.2.1)) *
      Real.sqrt (d.buildrad * d.buildrad / (p.1 * p.1 + p.2.1 * p.2.1)) =
      d.buildrad * d.buildrad / (p.1 * p.1 + p.2.1 * p.2.1) :=
    Real.mul_self_sqrt (div_nonneg (mul_self_nonneg _) hs.le)
  simp only [bound]
  rw [if_pos hgt]
  have hcalc : ∀ t : ℝ, p.1 * t * (p.1 * t) + p.2.1 * t * (p.2.1 * t) =
      (p.1 * p.1 + p.2.1 * p.2.1) * (t * t) := fun t => by ring
  rw [hcalc, ht2, mul_comm, div_mul_cancel₀ _ (ne_of_gt hs)]

/-- C6: `bound` scales `x` and `y` uniformly by
`sqrt(buildrad^2 / (x^2 + y^2))` when `x^2 + y^2 > buildrad^2` (placing the
result exactly on the build-plate boundary), leaves them unchanged when
`x^2 + y^2 ≤ buildrad^2`, and always passes `e` through unchanged. -/
theorem bound_radial (d : LinearDeltaCoordMap) (p : ℝ × ℝ × ℝ × ℝ) :
    (p.1 * p.1 + p.2.1 * p.2.1 > d.buildrad * d.buildrad →
      (bound d p).1 =
        p.1 * Real.sqrt (d.buildrad * d.buildrad / (p.1 * p.1 + p.2.1 * p.2.1)) ∧
      (bound d p).2.1 =
        p.2.1 * Real.sqrt (d.buildrad * d.buildrad / (p.1 * p.1 + p.2.1 * p.2.1)) ∧
      (bound d p).1 * (bound d p).1 + (bound d p).2.1 * (bound d p).2.1 =
        d.buildrad * d.buildrad) ∧
    (p.1 * p.1 + p.2.1 * p.2.1 ≤ d.buildrad * d.buildrad →
      (bound d p).1 = p.1 ∧ (bound d p).2.1 = p.2.1) ∧
    (bound d p).2.2.2 = p.2.2.2 := by
  refine ⟨fun hgt => ?_, fun hle => ?_, ?_⟩
  · refine ⟨?_, ?_, bound_on_boundary d p hgt⟩ <;>
      · simp only [bound]
        rw [if_pos hgt]
  · constructor <;>
      · simp only [bound]
        rw [if_neg (not_lt.mpr hle)]
  · by_cases hgt : p.1 * p.1 + p.2.1 * p.2.1 > d.buildrad * d.buildrad
    · simp only [bound]
      rw [if_pos hgt]
    · simp only [bound]
      rw [if_neg hgt]

/-- Witness for C6 at the spec's radial-clamp example: `buildrad = 85` and
`p = (100, 0, 0, 0)` give a bound `x` of exactly `85`. -/
theorem bound_radial_witness :
    (100 * 100 + 0 * 0 > dEx.buildrad * dEx.buildrad →
      (bound dEx (100, 0, 0, 0)).1 =
        100 * Real.sqrt (dEx.buildrad * dEx.buildrad / (100 * 100 + 0 * 0))) ∧
    (bound dEx (100, 0, 0, 0)).1 = 85 := by
  have h := bound_radial dEx (100, 0, 0, 0)
  have hbr : dEx.buildrad = 85 := by norm_num [dEx, mkLinearDeltaCoordMap]
  have hgt : (100 : ℝ) * 100 + 0 * 0 > dEx.buildrad * dEx.buildrad := by
    rw [hbr]; norm_num
  have hx := (h.1 hgt).1
  refine ⟨fun _ => hx, ?_⟩
  rw [hx, hbr]
  have hq : (85 : ℝ) * 85 / (100 * 100 + 0 * 0) = (17 / 20) ^ 2 := by norm_num
  rw [hq, Real.sqrt_sq (by norm_num : (0 : ℝ) ≤ 17 / 20)]
  norm_num

/-- C7: `bound` is idempotent: bounding an already-bounded position changes
nothing. -/
theorem bound_idempotent (d : LinearDeltaCoordMap) (p : ℝ × ℝ × ℝ × ℝ) :
    bound d (bound d p) = bound d p := by
  by_cases hgt : p.1 * p.1 + p.2.1 * p.2.1 > d.buildrad * d.buildrad
  · have hs : 0 < p.1 * p.1 + p.2.1 * p.2.1 :=
      lt_of_le_of_lt (mul_self_nonneg d.buildrad) hgt
    have hbd := bound_on_boundary d p hgt
    have hinner : bound d p =
        (p.1 * Real.sqrt (d.buildrad * d.buildrad / (p.1 * p.1 + p.2.1 * p.2.1)),
         p.2.1 * Real.sqrt (d.buildrad * d.buildrad / (p.1 * p.1 + p.2.1 * p.2.1)),
         max MIN_Z (min (zBound d) p.2.2.1), p.2.2.2) := by
      simp only [bound]
      rw [if_pos hgt]
    rw [hinner] at hbd ⊢
    simp only [bound]
    rw [if_neg (by rw [hbd]; exact lt_irrefl _)]
    exact Prod.ext rfl (Prod.ext rfl (Prod.ext (clamp_idem _ _ _) rfl))
  · have hinner : bound d p =
        (p.1, p.2.1, max MIN_Z (min (zBound d) p.2.2.1), p.2.2.2) := by
      simp only [bound]
      rw [if_neg hgt]
    rw [hinner]
    simp only [bound]
    rw [if_neg hgt]
    exact Prod.ext rfl (Prod.ext rfl (Prod.ext (clamp_idem _ _ _) rfl))

/-- A geometry exhibiting the z-bound unit slip: `r = 3`, `L = 5`, `h = 10`,
`buildrad = 85`, ten steps per millimeter. -/
noncomputable def dBug : LinearDeltaCoordMap := mkLinearDeltaCoordMap 3 5 10 85 10 10

/-- C2 at the failing input: with 10 steps/mm the code clamps `z` against
`(h + sqrt(L*L - r*r)) * STEPS_MM = 140` rather than the millimeter limit
`h + sqrt(L*L - r*r) = 14`; the input `z = 100` mm is left unchanged even
though it exceeds the claimed interval `[-2, 14]`. -/
theorem bound_z_unit_bug :
    (bound dBug (0, 0, 100, 0)).2.2.1 = 100 ∧
    dBug.h + Real.sqrt (dBug.L * dBug.L - dBug.r * dBug.r) < 100 := by
  have hsq : dBug.L * dBug.L - dBug.r * dBug.r = 4 ^ 2 := by
    norm_num [dBug, mkLinearDeltaCoordMap]
  have hs : Real.sqrt (dBug.L * dBug.L - dBug.r * dBug.r) = 4 := by
    rw [hsq, Real.sqrt_sq (by norm_num : (0 : ℝ) ≤ 4)]
  constructor
  · simp only [bound]
    rw [if_neg (by norm_num [dBug, mkLinearDeltaCoordMap])]
    simp only [zBound, hs]
    norm_num [dBug, mkLinearDeltaCoordMap, MIN_Z]
  · rw [hs]
    norm_num [dBug, mkLinearDeltaCoordMap]

/-! ## RCThermistor resistance inversion (`RCThermistor::guessRFromTime`) -/

/-- The circuit constants of one `RCThermistor` instance:
`C = C_PICO * 1e-12`, `Vcc = VCC_mV / 1000`, `Va = V_TOGGLE_mV / 1000`,
`Ra = R_OHMS`, and the search range `MIN_R`, `MAX_R`. -/
structure RCThermistor where
  C : ℝ
  Vcc : ℝ
  Va : ℝ
  Ra : ℝ
  MIN_R : ℝ
  MAX_R : ℝ

/-- The predicted discharge duration for a thermistor resistance `Rt`:
`calcT = C*Rt*log(Rt*Vcc / ((Ra+Rt)*Va))`. -/
noncomputable def calcT (cfg : RCThermistor) (Rt : ℝ) : ℝ :=
  cfg.C * Rt * Real.log (Rt * cfg.Vcc / ((cfg.Ra + Rt) * cfg.Va))

/-- One iteration of the binary-search loop body of `guessRFromTime`: compute
the midpoint `Rt = 0.5*(upper+lower)` and its predicted time; if the predicted
time is below the measured time, raise `lower` to `Rt`, else drop `upper` to
`Rt`. -/
noncomputable def guessStep (cfg : RCThermistor) (time lower upper : ℝ) :
    ℝ × ℝ :=
  let Rt := 0.5 * (upper + lower)
  if calcT cfg Rt < time then (Rt, upper) else (lower, Rt)

/-- Every iteration halves the bracket width. -/
theorem guessStep_width (cfg : RCThermistor) (time lower upper : ℝ) :
    (guessStep cfg time lower upper).2 - (guessStep cfg time lower upper).1 =
      (upper - lower) / 2 := by
  simp only [guessStep]
  split_ifs <;> ring

/-- If `2 < w` then the ceiling of `w / 2` is strictly below the ceiling of
`w`; this is the termination measure of the binary search. -/
theorem ceil_half_lt (w : ℝ) (hw : 2 < w) : ⌈w / 2⌉₊ < ⌈w⌉₊ := by
  have h0 : (0 : ℝ) ≤ w / 2 := by linarith
  have h1 : (⌈w / 2⌉₊ : ℝ) < w / 2 + 1 := Nat.ceil_lt_add_one h0
  have h2 : (⌈w / 2⌉₊ : ℝ) < w := by linarith
  have h3 : w ≤ (⌈w⌉₊ : ℝ) := Nat.le_ceil w
  exact_mod_cast lt_of_lt_of_le h2 h3

/-- The `while (upper-lower > 2)` loop of `guessRFromTime`, returning
`0.5*(lower+upper)` once the bracket width is at most 2. -/
noncomputable def guessLoop (cfg : RCThermistor) (time lower upper : ℝ) : ℝ :=
  if h : upper - lower > 2 then
    guessLoop cfg time (guessStep cfg time lower upper).1
      (guessStep cfg time lower upper).2
  else
    0.5 * (lower + upper)
termination_by ⌈upper - lower⌉₊
decreasing_by
  rw [guessStep_width]
  exact ceil_half_lt _ h

/-- Source `RCThermistor::guessRFromTime`: binary search over `[MIN_R, MAX_R]`. -/
noncomputable def guessRFromTime (cfg : RCThermistor) (time : ℝ) : ℝ :=
  guessLoop cfg time cfg.MIN_R cfg.MAX_R

/-- One binary-search iteration preserves the bracket invariant: if the true
resistance lies in `[lower, upper] ⊆ [MIN_R, MAX_R]` and the predicted-time map
is strictly increasing on `[MIN_R, MAX_R]`, then the true resistance still lies
in the new bracket, which is contained in the old one. -/
theorem guessStep_invariant (cfg : RCThermistor) (t Rt lower upper : ℝ)
    (hmono : StrictMonoOn (calcT cfg) (Set.Icc cfg.MIN_R cfg.MAX_R))
    (ht : calcT cfg Rt = t)
    (hMl : cfg.MIN_R ≤ lower) (hMu : upper ≤ cfg.MAX_R)
    (hlR : lower ≤ Rt) (hRu : Rt ≤ upper) :
    (guessStep cfg t lower upper).1 ≤ Rt ∧
    Rt ≤ (guessStep cfg t lower upper).2 ∧
    lower ≤ (guessStep cfg t lower upper).1 ∧
    (guessStep cfg t lower upper).2 ≤ upper := by
  have hlu : lower ≤ upper := le_trans hlR hRu
  set m := 0.5 * (upper + lower) with hm
  have hlm : lower ≤ m := by rw [hm]; linarith
  have hmu : m ≤ upper := by rw [hm]; linarith
  have hmem_m : m ∈ Set.Icc cfg.MIN_R cfg.MAX_R :=
    ⟨le_trans hMl hlm, le_trans hmu hMu⟩
  have hmem_Rt : Rt ∈ Set.Icc cfg.MIN_R cfg.MAX_R :=
    ⟨le_trans hMl hlR, le_trans hRu hMu⟩
  by_cases hc : calcT cfg m < t
  · have hmR : m ≤ Rt := by
      by_contra hcon
      push_neg at hcon
      have hlt := hmono hmem_Rt hmem_m hcon
      rw [ht] at hlt
      linarith
    have hstep : guessStep cfg t lower upper = (m, upper) := by
      simp only [guessStep]
      rw [← hm, if_pos hc]
    rw [hstep]
    exact ⟨hmR, hRu, hlm, le_refl _⟩
  · have hRm : Rt ≤ m := by
      by_contra hcon
      push_neg at hcon
      have hlt := hmono hmem_m hmem_Rt hcon
      rw [ht] at hlt
      exact hc hlt
    have hstep : guessStep cfg t lower upper = (lower, m) := by
      simp only [guessStep]
      rw [← hm, if_neg hc]
    rw [hstep]
    exact ⟨hlR, hRm, le_refl _, hmu⟩

/-- The loop of `guessRFromTime`, started on any bracket of `[MIN_R, MAX_R]`
containing the true resistance, terminates on a sub-bracket of width at most 2
that still contains the true resistance, and returns its midpoint. -/
theorem guessLoop_bracket (cfg : RCThermistor) (t Rt : ℝ)
    (hmono : StrictMonoOn (calcT cfg) (Set.Icc cfg.MIN_R cfg.MAX_R))
    (ht : calcT cfg Rt = t) :
    ∀ n : ℕ, ∀ lower upper : ℝ, ⌈upper - lower⌉₊ = n →
      cfg.MIN_R ≤ lower → upper ≤ cfg.MAX_R → lower ≤ Rt → Rt ≤ upper →
      ∃ l u : ℝ, lower ≤ l ∧ u ≤ upper ∧ l ≤ Rt ∧ Rt ≤ u ∧ u - l ≤ 2 ∧
        guessLoop cfg t lower upper = 0.5 * (l + u) := by
  intro n
  induction n using Nat.strong_induction_on with
  | _ n ih =>
    intro lower upper hn hMl hMu hlR hRu
    by_cases hgt : upper - lower > 2
    · obtain ⟨h1, h2, h3, h4⟩ :=
        guessStep_invariant cfg t Rt lower upper hmono ht hMl hMu hlR hRu
      have hlt : ⌈(guessStep cfg t lower upper).2 -
          (guessStep cfg t lower upper).1⌉₊ < n := by
        rw [guessStep_width, ← hn]
        exact ceil_half_lt _ hgt
      obtain ⟨l, u, g1, g2, g3, g4, g5, g6⟩ :=
        ih _ hlt (guessStep cfg t lower upper).1 (guessStep cfg t lower upper).2
          rfl (le_trans hMl h3) (le_trans h4 hMu) h1 h2
      rw [guessLoop.eq_def, dif_pos hgt]
      exact ⟨l, u, le_trans h3 g1, le_trans g2 h4, g3, g4, g5, g6⟩
    · rw [guessLoop.eq_def, dif_neg hgt]
      exact ⟨lower, upper, le_refl _, le_refl _, hlR, hRu,
        by linarith [not_lt.mp hgt], rfl⟩

/-- C8: under the monotonicity assumption, with the true resistance inside
`[MIN_R, MAX_R]` and the measured time equal to its predicted time: each
iteration of the binary search keeps the true resistance inside the bracket and
strictly shrinks the bracket width, and the search terminates on a bracket of
width at most 2 ohms containing the true resistance, returning its midpoint. -/
theorem guessRFromTime_bracket (cfg : RCThermistor) (t Rt : ℝ)
    (hmono : StrictMonoOn (calcT cfg) (Set.Icc cfg.MIN_R cfg.MAX_R))
    (hlo : cfg.MIN_R ≤ Rt) (hhi : Rt ≤ cfg.MAX_R) (ht : calcT cfg Rt = t) :
    (∀ lower upper : ℝ, cfg.MIN_R ≤ lower → upper ≤ cfg.MAX_R →
        lower ≤ Rt → Rt ≤ upper → 2 < upper - lower →
        (guessStep cfg t lower upper).1 ≤ Rt ∧
        Rt ≤ (guessStep cfg t lower upper).2 ∧
        (guessStep cfg t lower upper).2 - (guessStep cfg t lower upper).1 <
          upper - lower) ∧
    ∃ l u : ℝ, l ≤ Rt ∧ Rt ≤ u ∧ u - l ≤ 2 ∧
      guessRFromTime cfg t = 0.5 * (l + u) := by
  constructor
  · intro lower upper hMl hMu hlR hRu hgt
    obtain ⟨h1, h2, h3, h4⟩ :=
      guessStep_invariant cfg t Rt lower upper hmono ht hMl hMu hlR hRu
    refine ⟨h1, h2, ?_⟩
    rw [guessStep_width]
    linarith
  · obtain ⟨l, u, g1, g2, g3, g4, g5, g6⟩ :=
      guessLoop_bracket cfg t Rt hmono ht ⌈cfg.MAX_R - cfg.MIN_R⌉₊
        cfg.MIN_R cfg.MAX_R rfl (le_refl _) (le_refl _) hlo hhi
    exact ⟨l, u, g3, g4, g5, g6⟩

/-- C9 amended: under the monotonicity assumption, feeding the duration
predicted for a true resistance `Rt ∈ [MIN_R, MAX_R]` back into
`guessRFromTime` recovers `Rt` to within 2 ohms. -/
theorem guessRFromTime_roundTrip (cfg : RCThermistor) (Rt : ℝ)
    (hmono : StrictMonoOn (calcT cfg) (Set.Icc cfg.MIN_R cfg.MAX_R))
    (hlo : cfg.MIN_R ≤ Rt) (hhi : Rt ≤ cfg.MAX_R) :
    |guessRFromTime cfg (calcT cfg Rt) - Rt| ≤ 2 := by
  obtain ⟨l, u, g1, g2, g3, g4, g5, g6⟩ :=
    guessLoop_bracket cfg (calcT cfg Rt) Rt hmono rfl ⌈cfg.MAX_R - cfg.MIN_R⌉₊
      cfg.MIN_R cfg.MAX_R rfl (le_refl _) (le_refl _) hlo hhi
  rw [guessRFromTime, g6, abs_le]
  constructor <;> linarith

/-- A concrete circuit, `C = 1`, `Vcc = 2`, `Va = 1`, `Ra = 500`, searching
`[600, 601]`; above 500 ohms its predicted-time map is strictly increasing. -/
noncomputable def cfgEx : RCThermistor := ⟨1, 2, 1, 500, 600, 601⟩

/-- On `[600, 601]` the predicted-time map of `cfgEx` is strictly increasing:
it is the product of the positive strictly increasing maps
`R` and `log(2R/(500+R))`. -/
theorem calcT_cfgEx_strictMono :
    StrictMonoOn (calcT cfgEx) (Set.Icc cfgEx.MIN_R cfgEx.MAX_R) := by
  intro x hx y hy hxy
  have hx600 : (600 : ℝ) ≤ x := by
    have := hx.1
    simpa [cfgEx] using this
  have hy600 : (600 : ℝ) ≤ y := by
    have := hy.1
    simpa [cfgEx] using this
  have hform : ∀ z : ℝ, calcT cfgEx z = z * Real.log (z * 2 / (500 + z)) := by
    intro z
    simp [calcT, cfgEx]
  rw [hform x, hform y]
  have hdx : (0 : ℝ) < 500 + x := by linarith
  have hdy : (0 : ℝ) < 500 + y := by linarith
  have hgx1 : 1 < x * 2 / (500 + x) := by
    rw [lt_div_iff₀ hdx]
    linarith
  have hgxy : x * 2 / (500 + x) < y * 2 / (500 + y) := by
    rw [div_lt_div_iff₀ hdx hdy]
    nlinarith
  have hlogx : 0 < Real.log (x * 2 / (500 + x)) := Real.log_pos hgx1
  have hloglt : Real.log (x * 2 / (500 + x)) < Real.log (y * 2 / (500 + y)) :=
    Real.log_lt_log (lt_trans one_pos hgx1) hgxy
  calc x * Real.log (x * 2 / (500 + x))
      < y * Real.log (x * 2 / (500 + x)) :=
        mul_lt_mul_of_pos_right hxy hlogx
    _ < y * Real.log (y * 2 / (500 + y)) :=
        mul_lt_mul_of_pos_left hloglt (by linarith)

/-- Witness for C8 at the `cfgEx` circuit with true resistance `600.5`. -/
theorem guessRFromTime_bracket_witness :
    (StrictMonoOn (calcT cfgEx) (Set.Icc cfgEx.MIN_R cfgEx.MAX_R) ∧
      cfgEx.MIN_R ≤ (600.5 : ℝ) ∧ (600.5 : ℝ) ≤ cfgEx.MAX_R) ∧
    (∃ l u : ℝ, l ≤ (600.5 : ℝ) ∧ (600.5 : ℝ) ≤ u ∧ u - l ≤ 2 ∧
      guessRFromTime cfgEx (calcT cfgEx 600.5) = 0.5 * (l + u)) := by
  have hm := calcT_cfgEx_strictMono
  have hlo : cfgEx.MIN_R ≤ (600.5 : ℝ) := by norm_num [cfgEx]
  have hhi : (600.5 : ℝ) ≤ cfgEx.MAX_R := by norm_num [cfgEx]
  exact ⟨⟨hm, hlo, hhi⟩,
    (guessRFromTime_bracket cfgEx (calcT cfgEx 600.5) 600.5 hm hlo hhi rfl).2⟩

/-- Witness for the amended C9 theorem at the `cfgEx` circuit with true
resistance `601`. -/
theorem guessRFromTime_roundTrip_witness :
    (StrictMonoOn (calcT cfgEx) (Set.Icc cfgEx.MIN_R cfgEx.MAX_R) ∧
      cfgEx.MIN_R ≤ (601 : ℝ) ∧ (601 : ℝ) ≤ cfgEx.MAX_R) ∧
    |guessRFromTime cfgEx (calcT cfgEx 601) - 601| ≤ 2 := by
  have hm := calcT_cfgEx_strictMono
  have hlo : cfgEx.MIN_R ≤ (601 : ℝ) := by norm_num [cfgEx]
  have hhi : (601 : ℝ) ≤ cfgEx.MAX_R := by norm_num [cfgEx]
  exact ⟨⟨hm, hlo, hhi⟩, guessRFromTime_roundTrip cfgEx 601 hm hlo hhi⟩

/-- A degenerate circuit with `C = 0`: its predicted-time map is constantly
zero, so the binary search cannot locate the true resistance. -/
noncomputable def cfgZero : RCThermistor := ⟨0, 1, 1, 1, 0, 4⟩

/-- C9 counterexample: without any monotonicity assumption the round-trip
bound fails.  For `cfgZero` and true resistance `Rt = 4 ∈ [MIN_R, MAX_R]`, the
forward-computed duration is `0`, the search always moves `upper` down and
returns `1`, which is 3 ohms away from `Rt`. -/
theorem guessRFromTime_roundTrip_counterexample :
    ¬ (∀ (cfg : RCThermistor) (Rt : ℝ), cfg.MIN_R ≤ Rt → Rt ≤ cfg.MAX_R →
        |guessRFromTime cfg (calcT cfg Rt) - Rt| ≤ 2) := by
  intro hcl
  have h := hcl cfgZero 4 (by norm_num [cfgZero]) (by norm_num [cfgZero])
  have hct : ∀ z : ℝ, calcT cfgZero z = 0 := by
    intro z
    simp [calcT, cfgZero]
  have hstep : ∀ l u : ℝ, guessStep cfgZero 0 l u = (l, 0.5 * (u + l)) := by
    intro l u
    simp only [guessStep, hct]
    rw [if_neg (lt_irrefl 0)]
  have h1 : guessLoop cfgZero 0 0 4 = 1 := by
    rw [guessLoop.eq_def, dif_pos (by norm_num : (4 : ℝ) - 0 > 2), hstep]
    norm_num
    rw [guessLoop.eq_def, dif_neg (by norm_num : ¬((2 : ℝ) - 0 > 2))]
    norm_num
  rw [guessRFromTime, hct] at h
  have hMin : cfgZero.MIN_R = 0 := rfl
  have hMax : cfgZero.MAX_R = 4 := rfl
  rw [hMin, hMax, h1] at h
  have habs : |(1 : ℝ) - 4| = 3 := by
    rw [abs_sub_comm, abs_of_nonneg (by norm_num : (0 : ℝ) ≤ 4 - 1)]
    norm_num
  rw [habs] at h
  linarith

end Printipi
